import Mathlib

/-!
Shallow embedding of the balanced-consumer core of
src/kafka/pykafka/balancedconsumer.py, together with theorems checking the
natural-language specification against it.

Conventions of the embedding:
* Python (2) integers are Nat; `/` and `%` on them are floor division and
  modulus, matching Python 2 semantics on non-negative ints.
* Python sets held in `self._partitions` are represented as duplicate-free
  lists; set difference and union become `List.filter` and append.
* The ZooKeeper store is an association list from absolute paths to payloads;
  fallible kazoo operations return `Except` / `Option`.
* Exceptions propagate as `Option RebErr` results threaded by value; state
  mutated before the raising operation persists, as it does in Python.
-/

namespace PyKafka

/-- A partition descriptor: the fields of a pykafka partition object that
`balancedconsumer.py` reads (`p.topic.name`, `p.leader.id`, `p.id`). -/
structure Partition where
  topicName : String
  leaderId : Nat
  partId : Nat
deriving DecidableEq, Repr

/-- The sort key of `_decide_partitions`:
`'-'.join([p.topic.name, str(p.leader.id), str(p.id)])`. -/
def p_to_str (p : Partition) : String :=
  p.topicName ++ "-" ++ toString p.leaderId ++ "-" ++ toString p.partId

/-- Lexicographic less-or-equal on character lists, by code point: the order
Python uses to compare strings. -/
def charListLE : List Char → List Char → Bool
  | [], _ => true
  | _ :: _, [] => false
  | a :: as, b :: bs =>
    if a.toNat < b.toNat then true
    else if b.toNat < a.toNat then false
    else charListLE as bs

/-- Python's `<=` on strings (code-point lexicographic), as a proposition. -/
def strLE (a b : String) : Prop := charListLE a.data b.data = true

instance : DecidableRel strLE := fun a b =>
  inferInstanceAs (Decidable (charListLE a.data b.data = true))

/-- The comparison used by `all_partitions.sort(key=p_to_str)`: partitions are
ordered by their canonical string form. -/
def partitionLE (a b : Partition) : Prop := strLE (p_to_str a) (p_to_str b)

instance : DecidableRel partitionLE := fun a b =>
  inferInstanceAs (Decidable (strLE (p_to_str a) (p_to_str b)))

/-- `all_partitions.sort(key=p_to_str)`: sort of the partition list by its
canonical string form. -/
def sortPartitions (ps : List Partition) : List Partition :=
  ps.insertionSort partitionLE

/-- Python's `list.index`: the 0-based index of the first occurrence, or
`none` where Python raises `ValueError`. -/
def listIndex (x : String) : List String → Option Nat
  | [] => none
  | y :: ys => if y = x then some 0 else (listIndex x ys).map (· + 1)

/-- `BalancedConsumer._decide_partitions`, as a function of the raw partition
list of the topic (`self._topic.partitions.values()`, in arbitrary order),
this consumer's id (`self._id`) and the participant id list.  Returns `none`
where the Python raises (`participants.index` raising `ValueError` when
`self._id` is absent, which also covers the empty participant list). -/
def decide_partitions (topicParts : List Partition) (selfId : String)
    (participants : List String) : Option (List Partition) :=
  let all_partitions := sortPartitions topicParts
  match listIndex selfId participants with
  | none => none
  | some idx =>
    let parts_per_consumer := all_partitions.length / participants.length
    let remainder_ppc := all_partitions.length % participants.length
    let start := parts_per_consumer * idx + min idx remainder_ppc
    let num_parts := parts_per_consumer +
      (if idx + 1 > remainder_ppc then 0 else 1)
    some ((all_partitions.drop start).take num_parts)

theorem charListLE_total : ∀ as bs, charListLE as bs = true ∨ charListLE bs as = true
  | [], _ => Or.inl rfl
  | _ :: _, [] => Or.inr rfl
  | a :: as, b :: bs => by
    rcases Nat.lt_trichotomy a.toNat b.toNat with h | h | h
    · left; unfold charListLE; simp [h]
    · have e1 : ¬ a.toNat < b.toNat := by omega
      have e2 : ¬ b.toNat < a.toNat := by omega
      rcases charListLE_total as bs with ih | ih
      · left; unfold charListLE; simp [e1, e2, ih]
      · right; unfold charListLE; simp [e1, e2, ih]
    · right; unfold charListLE; simp [h]

theorem charListLE_cons_elim {a b : Char} {as bs : List Char}
    (h : charListLE (a :: as) (b :: bs) = true) :
    a.toNat < b.toNat ∨ (a.toNat = b.toNat ∧ charListLE as bs = true) := by
  unfold charListLE at h
  by_cases h1 : a.toNat < b.toNat
  · exact Or.inl h1
  · by_cases h2 : b.toNat < a.toNat
    · simp [h1, h2] at h
    · exact Or.inr ⟨by omega, by simpa [h1, h2] using h⟩

theorem charListLE_cons_intro {a b : Char} {as bs : List Char}
    (h : a.toNat < b.toNat ∨ (a.toNat = b.toNat ∧ charListLE as bs = true)) :
    charListLE (a :: as) (b :: bs) = true := by
  unfold charListLE
  rcases h with h | ⟨h, hrec⟩
  · simp [h]
  · simp [show ¬ a.toNat < b.toNat by omega, show ¬ b.toNat < a.toNat by omega,
      hrec]

theorem charListLE_trans : ∀ as bs cs, charListLE as bs = true →
    charListLE bs cs = true → charListLE as cs = true
  | [], _, _ => fun _ _ => rfl
  | _ :: _, [], _ => fun h _ => by unfold charListLE at h; exact absurd h (by simp)
  | _ :: _, _ :: _, [] => fun _ h => by
    unfold charListLE at h; exact absurd h (by simp)
  | a :: as, b :: bs, c :: cs => fun h1 h2 => by
    rcases charListLE_cons_elim h1 with hab | ⟨hab, hr1⟩ <;>
      rcases charListLE_cons_elim h2 with hbc | ⟨hbc, hr2⟩
    · exact charListLE_cons_intro (Or.inl (by omega))
    · exact charListLE_cons_intro (Or.inl (by omega))
    · exact charListLE_cons_intro (Or.inl (by omega))
    · exact charListLE_cons_intro
        (Or.inr ⟨by omega, charListLE_trans as bs cs hr1 hr2⟩)

instance : IsTotal String strLE := ⟨fun a b => charListLE_total a.data b.data⟩

instance : IsTrans String strLE :=
  ⟨fun a b c => charListLE_trans a.data b.data c.data⟩

instance : IsTotal Partition partitionLE :=
  ⟨fun a b => charListLE_total (p_to_str a).data (p_to_str b).data⟩

instance : IsTrans Partition partitionLE :=
  ⟨fun a b c => charListLE_trans (p_to_str a).data (p_to_str b).data
    (p_to_str c).data⟩

theorem listIndex_eq_none {x : String} : ∀ {l : List String},
    x ∉ l → listIndex x l = none
  | [], _ => rfl
  | y :: ys, h => by
    have hy : ¬ y = x := fun e => h (e ▸ List.mem_cons_self y ys)
    have hys : x ∉ ys := fun m => h (List.mem_cons_of_mem y m)
    simp [listIndex, hy, listIndex_eq_none hys]

theorem listIndex_get : ∀ (l : List String), l.Nodup → ∀ (i : Nat)
    (h : i < l.length), listIndex l[i] l = some i
  | [], _, i, h => absurd h (by simp)
  | y :: ys, hnd, 0, _ => by simp [listIndex]
  | y :: ys, hnd, i + 1, h => by
    have h' : i < ys.length := by simpa using h
    have hm : ys[i] ∈ ys := List.getElem_mem h'
    have hy : ¬ y = ys[i] := by
      intro e
      exact (List.nodup_cons.mp hnd).1 (e ▸ hm)
    simp only [List.getElem_cons_succ, listIndex, hy, if_false]
    rw [listIndex_get ys (List.nodup_cons.mp hnd).2 i h']
    rfl

theorem decide_count_eq (rem i : Nat) :
    (if i + 1 > rem then (0 : Nat) else 1) = if i < rem then 1 else 0 := by
  rcases Nat.lt_or_ge i rem with h | h
  · rw [if_neg (by omega), if_pos h]
  · rw [if_pos (by omega), if_neg (by omega)]

/-- C1: for a sorted partition list of length n and a sorted peer list of
length m containing self-id at index i, `_decide_partitions` returns exactly
the contiguous slice `partitions[start : start + count]` where
`base = n / m`, `rem = n % m`, `start = base * i + min i rem` and
`count = base + (1 if i < rem else 0)`. -/
theorem decide_partitions_slice (tps : List Partition) (peers : List String)
    (selfId : String) (i : Nat)
    (hsorted : sortPartitions tps = tps)
    (_hpeers : List.Sorted strLE peers)
    (hidx : listIndex selfId peers = some i) :
    decide_partitions tps selfId peers =
      some ((tps.drop (tps.length / peers.length * i +
          min i (tps.length % peers.length))).take
        (tps.length / peers.length +
          if i < tps.length % peers.length then 1 else 0)) := by
  unfold decide_partitions
  rw [hsorted, hidx]
  dsimp only
  rw [decide_count_eq]

/-- Concrete instance of `decide_partitions_slice`: three peers, seven
partitions, self-id at index 1 gets `partitions[3:5]` (base 2, rem 1). -/
theorem decide_partitions_slice_witness :
    decide_partitions
      [⟨"t", 0, 0⟩, ⟨"t", 0, 1⟩, ⟨"t", 0, 2⟩, ⟨"t", 0, 3⟩, ⟨"t", 0, 4⟩,
        ⟨"t", 0, 5⟩, ⟨"t", 0, 6⟩] "b" ["a", "b", "c"] =
    some [⟨"t", 0, 3⟩, ⟨"t", 0, 4⟩] := by
  have h := decide_partitions_slice
    [⟨"t", 0, 0⟩, ⟨"t", 0, 1⟩, ⟨"t", 0, 2⟩, ⟨"t", 0, 3⟩, ⟨"t", 0, 4⟩,
      ⟨"t", 0, 5⟩, ⟨"t", 0, 6⟩] ["a", "b", "c"] "b" 1
    (by decide) (by decide) (by decide)
  simpa using h

theorem start_succ (base rem k : Nat) :
    base * (k + 1) + min (k + 1) rem =
      base * k + min k rem + (base + if k < rem then 1 else 0) := by
  rw [Nat.mul_succ]
  split <;> omega

theorem slices_join (S : List Partition) (m : Nat) :
    ∀ k, k ≤ m →
    ((List.range k).map (fun i =>
      (S.drop (S.length / m * i + min i (S.length % m))).take
        (S.length / m + if i < S.length % m then 1 else 0))).flatten =
    S.take (S.length / m * k + min k (S.length % m))
  | 0, _ => by simp
  | k + 1, hk => by
    rw [List.range_succ, List.map_append, List.flatten_append,
      slices_join S m k (by omega)]
    simp only [List.map_cons, List.map_nil, List.flatten_cons, List.flatten_nil,
      List.append_nil]
    rw [start_succ]
    conv_rhs => rw [List.take_add]

theorem slices_join_all (S : List Partition) (m : Nat) (hm : 0 < m) :
    ((List.range m).map (fun i =>
      (S.drop (S.length / m * i + min i (S.length % m))).take
        (S.length / m + if i < S.length % m then 1 else 0))).flatten = S := by
  rw [slices_join S m m (le_refl m)]
  have h1 : S.length % m < m := Nat.mod_lt _ hm
  have h2 : min m (S.length % m) = S.length % m := by omega
  rw [h2, Nat.mul_comm, Nat.div_add_mod]
  exact List.take_length S

theorem decide_partitions_at_index (tps : List Partition)
    (peers : List String) (hpnd : peers.Nodup) (i : Nat)
    (h : i < peers.length) :
    decide_partitions tps peers[i] peers =
      some (((sortPartitions tps).drop
          ((sortPartitions tps).length / peers.length * i +
            min i ((sortPartitions tps).length % peers.length))).take
        ((sortPartitions tps).length / peers.length +
          if i < (sortPartitions tps).length % peers.length then 1 else 0)) := by
  unfold decide_partitions
  rw [listIndex_get peers hpnd i h]
  dsimp only
  rw [decide_count_eq]

/-- C2: for distinct peers (m at least 1) and distinct partitions, running
`_decide_partitions` once per peer index yields a partition of the input
partition list: the union over all indices equals the full partition set, and
the shares of two distinct indices are disjoint. -/
theorem decide_partitions_cover (tps : List Partition) (peers : List String)
    (hm : peers ≠ []) (hpnd : peers.Nodup) (htnd : tps.Nodup) :
    (∀ x : Partition, x ∈ tps ↔ ∃ i, ∃ h : i < peers.length,
      ∃ l, decide_partitions tps peers[i] peers = some l ∧ x ∈ l) ∧
    (∀ i j : Nat, ∀ hi : i < peers.length, ∀ hj : j < peers.length, i ≠ j →
      ∀ li lj : List Partition,
        decide_partitions tps peers[i] peers = some li →
        decide_partitions tps peers[j] peers = some lj →
        ∀ x, x ∈ li → x ∉ lj) := by
  have hm' : 0 < peers.length := List.length_pos.mpr hm
  have hperm := List.perm_insertionSort partitionLE tps
  have hSnd : (sortPartitions tps).Nodup := hperm.nodup_iff.mpr htnd
  have hflat := slices_join_all (sortPartitions tps) peers.length hm'
  constructor
  · intro x
    rw [show (x ∈ tps) = (x ∈ sortPartitions tps) from
      propext hperm.mem_iff.symm, ← hflat, List.mem_flatten]
    constructor
    · rintro ⟨l, hl, hx⟩
      rw [List.mem_map] at hl
      obtain ⟨i, hi, rfl⟩ := hl
      rw [List.mem_range] at hi
      exact ⟨i, hi, _, decide_partitions_at_index tps peers hpnd i hi, hx⟩
    · rintro ⟨i, hi, l, hdec, hx⟩
      rw [decide_partitions_at_index tps peers hpnd i hi] at hdec
      obtain rfl := Option.some.inj hdec
      exact ⟨_, List.mem_map.mpr ⟨i, List.mem_range.mpr hi, rfl⟩, hx⟩
  · intro i j hi hj hij li lj hdi hdj x hxi hxj
    rw [decide_partitions_at_index tps peers hpnd i hi] at hdi
    rw [decide_partitions_at_index tps peers hpnd j hj] at hdj
    obtain rfl := Option.some.inj hdi
    obtain rfl := Option.some.inj hdj
    have hjoin : (((List.range peers.length).map (fun i =>
        ((sortPartitions tps).drop
          ((sortPartitions tps).length / peers.length * i +
            min i ((sortPartitions tps).length % peers.length))).take
        ((sortPartitions tps).length / peers.length +
          if i < (sortPartitions tps).length % peers.length then 1
          else 0))).flatten).Nodup := by
      rw [hflat]; exact hSnd
    have hpair := (List.nodup_flatten.mp hjoin).2
    rw [List.pairwise_map] at hpair
    have hget := List.pairwise_iff_getElem.mp hpair
    rcases Nat.lt_or_ge i j with hlt | hge
    · have hd := hget i j (by simpa using hi) (by simpa using hj) hlt
      simp only [List.getElem_range] at hd
      exact hd hxi hxj
    · have hlt' : j < i := by omega
      have hd := hget j i (by simpa using hj) (by simpa using hi) hlt'
      simp only [List.getElem_range] at hd
      exact hd hxj hxi

/-- Concrete instance of `decide_partitions_cover`: with two peers and three
partitions, partition 2 is covered by some peer's share. -/
theorem decide_partitions_cover_witness :
    ∃ i, ∃ h : i < (["a", "b"] : List String).length, ∃ l,
      decide_partitions [⟨"t", 0, 0⟩, ⟨"t", 0, 1⟩, ⟨"t", 0, 2⟩]
          (["a", "b"] : List String)[i] ["a", "b"] = some l ∧
        (⟨"t", 0, 2⟩ : Partition) ∈ l :=
  ((decide_partitions_cover [⟨"t", 0, 0⟩, ⟨"t", 0, 1⟩, ⟨"t", 0, 2⟩]
      ["a", "b"] (by decide) (by decide) (by decide)).1 ⟨"t", 0, 2⟩).mp
    (by decide)

/-- The kazoo exceptions (and Python errors) that the consumer code can see:
`NoNodeException`, `NodeExistsError`, `list.index` raising `ValueError`, and
a failing `assert`. -/
inductive RebErr where
  | noNode
  | nodeExists
  | valueError
  | assertionError
deriving DecidableEq, Repr

/-- The ZooKeeper store: an association list from absolute node paths to
payloads.  Ephemerality is irrelevant within a single session, which is all
the code under test runs in. -/
abbrev ZKState := List (String × String)

def zkHasNode (zk : ZKState) (p : String) : Bool :=
  zk.any (fun n => n.1 == p)

/-- `zk.get(p)` restricted to the payload; `none` models `NoNodeException`. -/
def zkGet (zk : ZKState) (p : String) : Option String :=
  (zk.find? (fun n => n.1 == p)).map (fun n => n.2)

def dropPrefixChars : List Char → List Char → Option (List Char)
  | [], rest => some rest
  | _ :: _, [] => none
  | p :: ps, c :: cs => if p = c then dropPrefixChars ps cs else none

/-- The name of `full` as an immediate child of `parent`, when it is one. -/
def zkChildName (parent full : String) : Option String :=
  match dropPrefixChars (parent.data ++ ['/']) full.data with
  | none => none
  | some rest =>
    if rest ≠ [] ∧ ¬ '/' ∈ rest then some (String.mk rest) else none

/-- `zk.get_children(p)`: the immediate child names, or `none`
(`NoNodeException`) when the parent node is absent. -/
def zkGetChildren (zk : ZKState) (p : String) : Option (List String) :=
  if zkHasNode zk p then some (zk.filterMap (fun n => zkChildName p n.1))
  else none

/-- `zk.create(p, payload, ephemeral=True)`: fails with `NodeExistsError`
when a node at `p` already exists. -/
def zkCreate (zk : ZKState) (p payload : String) : Except RebErr ZKState :=
  if zkHasNode zk p then .error .nodeExists else .ok ((p, payload) :: zk)

/-- Ensure a (parent) node exists, as `makepath=True` / `ensure_path` do. -/
def zkEnsureNode (zk : ZKState) (p : String) : ZKState :=
  if zkHasNode zk p then zk else (p, "") :: zk

/-- `zk.delete(p)`: fails with `NoNodeException` when the node is absent. -/
def zkDelete (zk : ZKState) (p : String) : Except RebErr ZKState :=
  if zkHasNode zk p then .ok (zk.filter (fun n => n.1 != p))
  else .error .noNode

/-- The construction-time fields of `BalancedConsumer` that the rebalance
logic reads: topic name, group name, `self._id`, and the topic's partition
collection (`self._topic.partitions.values()`, in arbitrary order). -/
structure RebCfg where
  topicName : String
  consumer_group : String
  selfId : String
  topicPartitions : List Partition
deriving Repr

/-- `self._id_path`. -/
def id_path (cfg : RebCfg) : String :=
  "/consumers/" ++ cfg.consumer_group ++ "/ids"

/-- `self._topic_path`. -/
def topic_path (cfg : RebCfg) : String :=
  "/consumers/" ++ cfg.consumer_group ++ "/owners/" ++ cfg.topicName

/-- `BalancedConsumer._path_from_partition`. -/
def path_from_partition (cfg : RebCfg) (p : Partition) : String :=
  topic_path cfg ++ "/" ++ toString p.leaderId ++ "-" ++ toString p.partId

/-- The second phase of `_get_participants`: given the child listing already
obtained from `get_children`, read each child's payload from the store as it
is at read time (`store`), keep the ids whose payload equals this topic's
name, silently skip ids whose node is gone (`except NoNodeException: pass`),
and sort ascending.  Splitting the phases makes the
listing/read race of the source representable: `ids` may list children that
`store` no longer holds. -/
def participants_from (cfg : RebCfg) (ids : List String) (store : ZKState) :
    List String :=
  let participants := ids.filterMap (fun id_ =>
    match zkGet store (id_path cfg ++ "/" ++ id_) with
    | some topic => if topic = cfg.topicName then some id_ else none
    | none => none)
  participants.insertionSort strLE

/-- `BalancedConsumer._get_participants`, with both phases reading the same
store. -/
def get_participants (cfg : RebCfg) (zk : ZKState) : List String :=
  match zkGetChildren zk (id_path cfg) with
  | none => []
  | some ids => participants_from cfg ids zk

/-- `BalancedConsumer._add_self`: register in zookeeper unless there are
already at least as many participants as partitions. -/
def add_self (cfg : RebCfg) (zk : ZKState) : ZKState × Option RebErr :=
  let participants := get_participants cfg zk
  if cfg.topicPartitions.length ≤ participants.length then (zk, none)
  else
    match zkCreate (zkEnsureNode zk (id_path cfg))
        (id_path cfg ++ "/" ++ cfg.selfId) cfg.topicName with
    | .ok zk' => (zk', none)
    | .error e => (zk, some e)

theorem zkHasNode_cons (zk : ZKState) (q v p : String) :
    zkHasNode ((q, v) :: zk) p = ((q == p) || zkHasNode zk p) := rfl

theorem zkHasNode_ensure (zk : ZKState) (q p : String) (h : q ≠ p) :
    zkHasNode (zkEnsureNode zk q) p = zkHasNode zk p := by
  unfold zkEnsureNode
  split
  · rfl
  · rw [zkHasNode_cons]
    simp [h]

theorem selfPath_ne_idPath (cfg : RebCfg) :
    id_path cfg ++ "/" ++ cfg.selfId ≠ id_path cfg := by
  intro h
  have hlen := congrArg String.length h
  simp only [String.length_append] at hlen
  have h1 : ("/" : String).length = 1 := rfl
  omega

/-- C8: registration creates the member node `<id_path>/<self-id>` with
payload the topic name if and only if the number of current participants is
strictly below the partition count; when participants reach or exceed the
partition count it returns without creating anything, and neither case is an
error. -/
theorem add_self_guard (cfg : RebCfg) (zk : ZKState)
    (hfresh : zkHasNode zk (id_path cfg ++ "/" ++ cfg.selfId) = false) :
    (add_self cfg zk).2 = none ∧
    (zkHasNode (add_self cfg zk).1 (id_path cfg ++ "/" ++ cfg.selfId) = true ↔
      (get_participants cfg zk).length < cfg.topicPartitions.length) ∧
    ((get_participants cfg zk).length < cfg.topicPartitions.length →
      zkGet (add_self cfg zk).1 (id_path cfg ++ "/" ++ cfg.selfId) =
        some cfg.topicName) ∧
    (cfg.topicPartitions.length ≤ (get_participants cfg zk).length →
      (add_self cfg zk).1 = zk) := by
  have hne : id_path cfg ≠ id_path cfg ++ "/" ++ cfg.selfId :=
    fun h => selfPath_ne_idPath cfg h.symm
  by_cases hg :
      cfg.topicPartitions.length ≤ (get_participants cfg zk).length
  · have hres : add_self cfg zk = (zk, none) := by
      unfold add_self
      rw [if_pos hg]
    refine ⟨by rw [hres], ?_, fun hlt => absurd hlt (by omega),
      fun _ => by rw [hres]⟩
    rw [hres]
    simp only [hfresh]
    constructor
    · intro h; exact absurd h (by simp)
    · intro h; exact absurd h (by omega)
  · have hh : zkHasNode (zkEnsureNode zk (id_path cfg))
        (id_path cfg ++ "/" ++ cfg.selfId) = false := by
      rw [zkHasNode_ensure zk (id_path cfg) _ hne]
      exact hfresh
    have hres : add_self cfg zk =
        ((id_path cfg ++ "/" ++ cfg.selfId, cfg.topicName) ::
          zkEnsureNode zk (id_path cfg), none) := by
      unfold add_self
      rw [if_neg hg]
      unfold zkCreate
      rw [hh]
      simp
    refine ⟨by rw [hres], ?_, fun _ => ?_, fun hle => absurd hle hg⟩
    · rw [hres]
      simp only [zkHasNode_cons, beq_self_eq_true, Bool.true_or, true_iff]
      omega
    · rw [hres]
      simp [zkGet, List.find?]

/-- Concrete instance of `add_self_guard`: one partition, no participants
yet, so the member node is created with the topic name as payload. -/
theorem add_self_guard_witness :
    zkGet (add_self ⟨"t", "g", "me", [⟨"t", 0, 0⟩]⟩
        [("/consumers/g/ids", "")]).1 "/consumers/g/ids/me" = some "t" := by
  have h := (add_self_guard ⟨"t", "g", "me", [⟨"t", 0, 0⟩]⟩
    [("/consumers/g/ids", "")] (by decide)).2.2.1 (by decide)
  simpa using h

/-- C9: `_get_participants` returns the ascending-sorted member ids (in the
code-point string order `strLE`) whose payload equals this topic's name; an
id listed by `get_children` whose node is gone by read time is silently
skipped; and `NoNodeException` on the parent path yields the empty list. -/
theorem get_participants_spec (cfg : RebCfg) (zk : ZKState)
    (ids : List String) :
    (zkGetChildren zk (id_path cfg) = none → get_participants cfg zk = []) ∧
    List.Sorted strLE (participants_from cfg ids zk) ∧
    (∀ id_, id_ ∈ participants_from cfg ids zk ↔
      id_ ∈ ids ∧
        zkGet zk (id_path cfg ++ "/" ++ id_) = some cfg.topicName) ∧
    (zkGetChildren zk (id_path cfg) = some ids →
      get_participants cfg zk = participants_from cfg ids zk) := by
  refine ⟨fun h => ?_, ?_, fun id_ => ?_, fun h => ?_⟩
  · unfold get_participants
    rw [h]
  · exact List.sorted_insertionSort strLE _
  · unfold participants_from
    rw [List.Perm.mem_iff (List.perm_insertionSort strLE _),
      List.mem_filterMap]
    constructor
    · rintro ⟨a, ha, hf⟩
      rcases hg : zkGet zk (id_path cfg ++ "/" ++ a) with _ | t
      · rw [hg] at hf
        exact absurd hf (by simp)
      · rw [hg] at hf
        by_cases ht : t = cfg.topicName
        · simp only [ht, if_pos rfl] at hf
          obtain rfl := Option.some.inj hf
          exact ⟨ha, ht ▸ hg⟩
        · simp [ht] at hf
    · rintro ⟨hin, hget⟩
      exact ⟨id_, hin, by rw [hget]; simp⟩
  · unfold get_participants
    rw [h]

/-- Concrete instance of `get_participants_spec`: a member id registered for
another topic is filtered out, one registered for this topic is kept. -/
theorem get_participants_spec_witness :
    "b:2" ∈ participants_from ⟨"t", "g", "me", []⟩ ["a:1", "b:2"]
      [("/consumers/g/ids", ""), ("/consumers/g/ids/a:1", "other"),
        ("/consumers/g/ids/b:2", "t")] :=
  ((get_participants_spec ⟨"t", "g", "me", []⟩
      [("/consumers/g/ids", ""), ("/consumers/g/ids/a:1", "other"),
        ("/consumers/g/ids/b:2", "t")] ["a:1", "b:2"]).2.2.1 "b:2").mpr
    ⟨by decide, by decide⟩

/-- Observable actions of a rebalance pass, in program order. -/
inductive Event where
  | sleepEv (secs : Nat)
  | logRetryEv (secs : Nat)
  | readParticipantsEv
  | deleteEv (path : String)
  | createEv (path : String)
  | stopConsumerEv
  | newConsumerEv (parts : List Partition)
deriving DecidableEq, Repr

/-- Result of one zookeeper-mutating helper call: the store afterwards, the
value of `self._partitions` afterwards, the events performed, and the
exception that escaped, if any.  Store mutations made before a raising call
persist, as they do in Python. -/
structure OpResult where
  zk : ZKState
  partitions : List Partition
  events : List Event
  err : Option RebErr
deriving DecidableEq, Repr

/-- The loop of `_remove_partitions`: `assert p in self._partitions`, then
delete each ownership node; an exception aborts the loop, keeping the
deletes already performed. -/
def remove_loop (cfg : RebCfg) (owned : List Partition) :
    ZKState → List Partition → ZKState × List Event × Option RebErr
  | zk, [] => (zk, [], none)
  | zk, p :: rest =>
    if p ∈ owned then
      match zkDelete zk (path_from_partition cfg p) with
      | .ok zk' =>
        let r := remove_loop cfg owned zk' rest
        (r.1, .deleteEv (path_from_partition cfg p) :: r.2.1, r.2.2)
      | .error e => (zk, [], some e)
    else (zk, [], some .assertionError)

/-- `BalancedConsumer._remove_partitions`: delete the ownership nodes, then
(only when no exception escaped) `self._partitions -= partitions`. -/
def remove_partitions (cfg : RebCfg) (zk : ZKState)
    (owned toRemove : List Partition) : OpResult :=
  match remove_loop cfg owned zk toRemove with
  | (zk', evs, none) =>
    ⟨zk', owned.filter (fun p => decide (p ∉ toRemove)), evs, none⟩
  | (zk', evs, some e) => ⟨zk', owned, evs, some e⟩

/-- The loop of `_add_partitions`: create each ownership node ephemeral with
payload `self._id`; `NodeExistsError` aborts the loop, keeping the creates
already performed. -/
def add_loop (cfg : RebCfg) :
    ZKState → List Partition → ZKState × List Event × Option RebErr
  | zk, [] => (zk, [], none)
  | zk, p :: rest =>
    match zkCreate zk (path_from_partition cfg p) cfg.selfId with
    | .ok zk' =>
      let r := add_loop cfg zk' rest
      (r.1, .createEv (path_from_partition cfg p) :: r.2.1, r.2.2)
    | .error e => (zk, [], some e)

/-- `BalancedConsumer._add_partitions`: create the ownership nodes; only when
every create succeeded, `self._partitions |= partitions - self._partitions`. -/
def add_partitions (cfg : RebCfg) (zk : ZKState)
    (owned toAdd : List Partition) : OpResult :=
  match add_loop cfg zk toAdd with
  | (zk', evs, none) =>
    ⟨zk', owned ++ toAdd.filter (fun p => decide (p ∉ owned)), evs, none⟩
  | (zk', evs, some e) => ⟨zk', owned, evs, some e⟩

/-- The mutable state of a `BalancedConsumer` that `_rebalance` touches: the
zookeeper store, `self._partitions`, and `self._consumer`, the latter
modelled by the partition list the `SimpleConsumer` was built on. -/
structure RebState where
  zk : ZKState
  partitions : List Partition
  consumer : Option (List Partition)
deriving DecidableEq, Repr

/-- `BalancedConsumer._setup_internal_consumer`: stop the present inner
consumer if there is one, then construct a new `SimpleConsumer` on
`list(self._partitions)`. -/
def setup_internal_consumer (st : RebState) : RebState × List Event :=
  ({ st with consumer := some st.partitions },
    (match st.consumer with
     | some _ => [Event.stopConsumerEv]
     | none => []) ++ [Event.newConsumerEv st.partitions])

/-- `self._rebalance_retries`. -/
def rebalance_retries : Nat := 5

/-- The actions a retry attempt performs before touching ownership nodes:
nothing on attempt 0; on attempt `i >= 1` the `Retrying in %is` log with
`(i + 1) ** 2`, the `time.sleep(i ** 2)`, and the re-read of the
participant list for the re-decision. -/
def attemptPre (i : Nat) : List Event :=
  if i == 0 then []
  else [Event.logRetryEv ((i + 1) ^ 2), Event.sleepEv (i ^ 2),
    Event.readParticipantsEv]

/-- The retry loop of `_rebalance`, over the remaining values of the loop
index `i` of `xrange(self._rebalance_retries)`.  Returns the state, the
per-attempt event traces, and how the loop ended: `.ok` covers both `break`
(a successful `_add_partitions`) and falling off the end of the range after
`continue`s; `.error` is an exception escaping `_rebalance` (the
`ValueError` of `participants.index` on a retry, or an uncaught exception
from `_remove_partitions`). -/
def rebalanceGo (cfg : RebCfg) :
    RebState → List Partition → List Nat →
      RebState × List (List Event) × Except RebErr Unit
  | st, _, [] => (st, [], .ok ())
  | st, np, i :: rest =>
    let pre : List Event := attemptPre i
    let npE : Except RebErr (List Partition) :=
      if i == 0 then .ok np
      else
        match decide_partitions cfg.topicPartitions cfg.selfId
            (get_participants cfg st.zk) with
        | none => .error .valueError
        | some np' => .ok np'
    match npE with
    | .error e => (st, [pre], .error e)
    | .ok np' =>
      let rres := remove_partitions cfg st.zk st.partitions
        (st.partitions.filter (fun p => decide (p ∉ np')))
      match rres.err with
      | some e =>
        ({ st with zk := rres.zk, partitions := rres.partitions },
          [pre ++ rres.events], .error e)
      | none =>
        let ares := add_partitions cfg rres.zk rres.partitions
          (np'.filter (fun p => decide (p ∉ rres.partitions)))
        match ares.err with
        | none =>
          ({ st with zk := ares.zk, partitions := ares.partitions },
            [pre ++ rres.events ++ ares.events], .ok ())
        | some _ =>
          let r := rebalanceGo cfg
            { st with zk := ares.zk, partitions := ares.partitions } np' rest
          (r.1, (pre ++ rres.events ++ ares.events) :: r.2.1, r.2.2)

/-- The outcome of one `_rebalance` call: final state, the event trace of
each attempt of the retry loop, the events of the final
`_setup_internal_consumer` (empty when an exception escaped before it), and
whether an exception escaped. -/
structure RebResult where
  state : RebState
  attempts : List (List Event)
  postEvents : List Event
  outcome : Except RebErr Unit
deriving Repr

/-- `BalancedConsumer._rebalance`: read participants, decide the target
partitions, run the retry loop, and (unless an exception escaped) rebuild
the inner consumer. -/
def rebalance (cfg : RebCfg) (st : RebState) : RebResult :=
  match decide_partitions cfg.topicPartitions cfg.selfId
      (get_participants cfg st.zk) with
  | none => ⟨st, [], [], .error .valueError⟩
  | some np =>
    match rebalanceGo cfg st np (List.range rebalance_retries) with
    | (st', trs, .error e) => ⟨st', trs, [], .error e⟩
    | (st', trs, .ok _) =>
      let r := setup_internal_consumer st'
      ⟨r.1, trs, r.2, .ok ()⟩

/-- C10: `_add_partitions` updates `self._partitions` only after every
creation in the batch succeeded; if any create raises `NodeExistsError` the
owned set is left exactly as it was. -/
theorem add_partitions_owned (cfg : RebCfg) (zk : ZKState)
    (owned toAdd : List Partition) :
    ((add_partitions cfg zk owned toAdd).err.isSome = true →
      (add_partitions cfg zk owned toAdd).partitions = owned) ∧
    ((add_partitions cfg zk owned toAdd).err = none →
      (add_partitions cfg zk owned toAdd).partitions =
        owned ++ toAdd.filter (fun p => decide (p ∉ owned))) := by
  unfold add_partitions
  rcases h : add_loop cfg zk toAdd with ⟨zk', evs, err⟩
  cases err <;> simp

/-- Concrete instance of `add_partitions_owned`: the second create hits an
existing node, the owned set stays empty, yet the first node was created in
the store and stays there. -/
theorem add_partitions_owned_witness :
    (add_partitions ⟨"t", "g", "me", []⟩ [("/consumers/g/owners/t/0-1", "x")]
        [] [⟨"t", 0, 0⟩, ⟨"t", 0, 1⟩]).partitions = [] ∧
    zkHasNode (add_partitions ⟨"t", "g", "me", []⟩
        [("/consumers/g/owners/t/0-1", "x")] []
        [⟨"t", 0, 0⟩, ⟨"t", 0, 1⟩]).zk "/consumers/g/owners/t/0-0" = true ∧
    (add_partitions ⟨"t", "g", "me", []⟩ [("/consumers/g/owners/t/0-1", "x")]
        [] [⟨"t", 0, 0⟩, ⟨"t", 0, 1⟩]).err = some RebErr.nodeExists :=
  ⟨(add_partitions_owned ⟨"t", "g", "me", []⟩
      [("/consumers/g/owners/t/0-1", "x")] []
      [⟨"t", 0, 0⟩, ⟨"t", 0, 1⟩]).1 (by decide), by decide, by decide⟩

/-- C4 counterexample: with the ownership node absent from the store,
`_remove_partitions` raises `NoNodeException` instead of treating it as
success, and the partition stays in the owned set. -/
theorem remove_partitions_notfound_cex :
    (remove_partitions ⟨"t", "g", "me", []⟩ [] [⟨"t", 0, 0⟩]
        [⟨"t", 0, 0⟩]).err = some RebErr.noNode ∧
    (remove_partitions ⟨"t", "g", "me", []⟩ [] [⟨"t", 0, 0⟩]
        [⟨"t", 0, 0⟩]).partitions = [⟨"t", 0, 0⟩] := by
  exact ⟨by decide, by decide⟩

theorem zkHasNode_delete_other (zk : ZKState) (p q : String) (h : q ≠ p)
    (hq : zkHasNode zk q = true) :
    zkHasNode (zk.filter (fun n => n.1 != p)) q = true := by
  unfold zkHasNode at *
  rw [List.any_eq_true] at *
  obtain ⟨n, hn, he⟩ := hq
  refine ⟨n, ?_, he⟩
  rw [List.mem_filter]
  refine ⟨hn, ?_⟩
  have hnq : n.1 = q := by simpa using he
  simp [hnq, h]

theorem remove_loop_ok (cfg : RebCfg) (owned : List Partition) :
    ∀ (toRemove : List Partition) (zk : ZKState),
    (∀ p ∈ toRemove, p ∈ owned) →
    (∀ p ∈ toRemove, zkHasNode zk (path_from_partition cfg p) = true) →
    toRemove.Pairwise (fun a b =>
      path_from_partition cfg a ≠ path_from_partition cfg b) →
    (remove_loop cfg owned zk toRemove).2.2 = none
  | [], _, _, _, _ => rfl
  | p :: rest, zk, hsub, hpres, hpw => by
    have hp : p ∈ owned := hsub p (List.mem_cons_self p rest)
    have hdel : zkDelete zk (path_from_partition cfg p) =
        .ok (zk.filter (fun n => n.1 != path_from_partition cfg p)) := by
      unfold zkDelete
      rw [hpres p (List.mem_cons_self p rest)]
      rfl
    have hpw' := List.pairwise_cons.mp hpw
    have hrec := remove_loop_ok cfg owned rest
      (zk.filter (fun n => n.1 != path_from_partition cfg p))
      (fun q hq => hsub q (List.mem_cons_of_mem p hq))
      (fun q hq => zkHasNode_delete_other zk (path_from_partition cfg p)
        (path_from_partition cfg q) (Ne.symm (hpw'.1 q hq))
        (hpres q (List.mem_cons_of_mem p hq)))
      hpw'.2
    unfold remove_loop
    rw [if_pos hp, hdel]
    simpa using hrec

/-- C4 amended: a `NotFound` failure on delete is not treated as success:
the exception escapes `_remove_partitions` and the owned set is left
unchanged by the call; the owned set is diminished (and the release step
completes) exactly when every listed ownership node exists and is deleted. -/
theorem remove_partitions_spec (cfg : RebCfg) (zk : ZKState)
    (owned toRemove : List Partition) :
    ((remove_partitions cfg zk owned toRemove).err.isSome = true →
      (remove_partitions cfg zk owned toRemove).partitions = owned) ∧
    ((∀ p ∈ toRemove, p ∈ owned) →
     (∀ p ∈ toRemove, zkHasNode zk (path_from_partition cfg p) = true) →
     toRemove.Pairwise (fun a b =>
       path_from_partition cfg a ≠ path_from_partition cfg b) →
      (remove_partitions cfg zk owned toRemove).err = none ∧
      (remove_partitions cfg zk owned toRemove).partitions =
        owned.filter (fun p => decide (p ∉ toRemove))) := by
  constructor
  · intro h
    unfold remove_partitions at h ⊢
    rcases hr : remove_loop cfg owned zk toRemove with ⟨zk', evs, err⟩
    cases err
    · rw [hr] at h
      simp at h
    · rfl
  · intro h1 h2 h3
    have h0 := remove_loop_ok cfg owned toRemove zk h1 h2 h3
    unfold remove_partitions
    rcases hr : remove_loop cfg owned zk toRemove with ⟨zk', evs, err⟩
    rw [hr] at h0
    simp only at h0
    subst h0
    exact ⟨rfl, rfl⟩

/-- Concrete instance of `remove_partitions_spec`: the node exists, the
delete succeeds, and the partition leaves the owned set. -/
theorem remove_partitions_spec_witness :
    (remove_partitions ⟨"t", "g", "me", []⟩
        [("/consumers/g/owners/t/0-0", "me")] [⟨"t", 0, 0⟩]
        [⟨"t", 0, 0⟩]).err = none ∧
    (remove_partitions ⟨"t", "g", "me", []⟩
        [("/consumers/g/owners/t/0-0", "me")] [⟨"t", 0, 0⟩]
        [⟨"t", 0, 0⟩]).partitions = [] := by
  have h := (remove_partitions_spec ⟨"t", "g", "me", []⟩
    [("/consumers/g/owners/t/0-0", "me")] [⟨"t", 0, 0⟩] [⟨"t", 0, 0⟩]).2
    (by decide) (by decide) (by decide)
  simpa using h

/-- C3 (on the bug): when self-id is absent from the participant list the
rebalance controller still calls `_decide_partitions`; its index lookup
raises `ValueError`, so the whole `_rebalance` call dies before any attempt
and before any consumer replacement, instead of treating the situation as
"no assignment". -/
theorem rebalance_self_absent (cfg : RebCfg) (st : RebState)
    (h : cfg.selfId ∉ get_participants cfg st.zk) :
    (rebalance cfg st).outcome = .error RebErr.valueError ∧
    (rebalance cfg st).attempts = [] ∧
    (rebalance cfg st).postEvents = [] := by
  have hd : decide_partitions cfg.topicPartitions cfg.selfId
      (get_participants cfg st.zk) = none := by
    unfold decide_partitions
    rw [listIndex_eq_none h]
  unfold rebalance
  rw [hd]
  exact ⟨rfl, rfl, rfl⟩

/-- Concrete instance of `rebalance_self_absent`: the over-subscription case
itself: one partition, one other registered participant, so `_add_self`
skipped registration; the next `_rebalance` then raises `ValueError`. -/
theorem rebalance_self_absent_witness :
    (rebalance ⟨"t", "g", "b:2", [⟨"t", 0, 0⟩]⟩
        ⟨[("/consumers/g/ids", ""), ("/consumers/g/ids/a:1", "t")],
          [], none⟩).outcome = .error RebErr.valueError :=
  (rebalance_self_absent ⟨"t", "g", "b:2", [⟨"t", 0, 0⟩]⟩
    ⟨[("/consumers/g/ids", ""), ("/consumers/g/ids/a:1", "t")], [], none⟩
    (by decide)).1

theorem rebalanceGo_consumer (cfg : RebCfg) :
    ∀ (idxs : List Nat) (st : RebState) (np : List Partition),
    (rebalanceGo cfg st np idxs).1.consumer = st.consumer
  | [], _, _ => rfl
  | i :: rest, st, np => by
    unfold rebalanceGo
    dsimp only
    split
    · rfl
    · split
      · rfl
      · split
        · rfl
        · exact rebalanceGo_consumer cfg rest _ _

/-- C5 amended: every `_rebalance` call that completes (no exception
escaped) replaces the inner consumer unconditionally: the present consumer,
if any, is stopped and a new `SimpleConsumer` is constructed on the final
owned set, even when the newly decided set equals the currently owned set. -/
theorem rebalance_always_replaces (cfg : RebCfg) (st : RebState)
    (h : (rebalance cfg st).outcome = .ok ()) :
    (rebalance cfg st).postEvents =
      (match st.consumer with
       | some _ => [Event.stopConsumerEv]
       | none => []) ++
        [Event.newConsumerEv (rebalance cfg st).state.partitions] ∧
    (rebalance cfg st).state.consumer =
      some ((rebalance cfg st).state.partitions) := by
  unfold rebalance at h ⊢
  rcases hd : decide_partitions cfg.topicPartitions cfg.selfId
      (get_participants cfg st.zk) with _ | np
  · rw [hd] at h
    simp at h
  · rw [hd] at h
    dsimp only at h ⊢
    rcases hg : rebalanceGo cfg st np (List.range rebalance_retries)
      with ⟨st', trs, out⟩
    rw [hg] at h
    cases out with
    | error e => simp at h
    | ok u =>
      cases u
      dsimp only at h ⊢
      have hc : st'.consumer = st.consumer := by
        have hgc := rebalanceGo_consumer cfg (List.range rebalance_retries)
          st np
        rw [hg] at hgc
        exact hgc
      constructor
      · show (setup_internal_consumer st').2 = _
        unfold setup_internal_consumer
        rw [hc]
      · rfl

/-- The no-op-transition scenario: one partition, one peer, the decided set
equals the owned set, an inner consumer already present. -/
def cfgNoop : RebCfg := ⟨"t", "g", "me", [⟨"t", 0, 0⟩]⟩

def stNoop : RebState :=
  ⟨[("/consumers/g/ids", ""), ("/consumers/g/ids/me", "t"),
      ("/consumers/g/owners/t", ""), ("/consumers/g/owners/t/0-0", "me")],
    [⟨"t", 0, 0⟩], some [⟨"t", 0, 0⟩]⟩

/-- C5 counterexample: on this pass the newly decided set equals the owned
set, yet the inner consumer is stopped and a new one is constructed. -/
theorem rebalance_noop_still_replaces_cex :
    decide_partitions cfgNoop.topicPartitions cfgNoop.selfId
        (get_participants cfgNoop stNoop.zk) = some stNoop.partitions ∧
    Event.stopConsumerEv ∈ (rebalance cfgNoop stNoop).postEvents ∧
    Event.newConsumerEv [⟨"t", 0, 0⟩] ∈ (rebalance cfgNoop stNoop).postEvents
    := ⟨by decide, by decide, by decide⟩

/-- Concrete instance of `rebalance_always_replaces` on the same no-op
transition. -/
theorem rebalance_always_replaces_witness :
    (rebalance cfgNoop stNoop).postEvents =
      [Event.stopConsumerEv, Event.newConsumerEv
        (rebalance cfgNoop stNoop).state.partitions] :=
  (rebalance_always_replaces cfgNoop stNoop (by rfl)).1

def Event.isDelete : Event → Bool
  | .deleteEv _ => true
  | _ => false

def Event.isCreate : Event → Bool
  | .createEv _ => true
  | _ => false

def Event.isSleep : Event → Bool
  | .sleepEv _ => true
  | _ => false

def Event.isLog : Event → Bool
  | .logRetryEv _ => true
  | _ => false

theorem remove_loop_events (cfg : RebCfg) (owned : List Partition) :
    ∀ (toRemove : List Partition) (zk : ZKState),
    ∀ e ∈ (remove_loop cfg owned zk toRemove).2.1, ∃ q, e = Event.deleteEv q
  | [], zk => by
    intro e he
    simp [remove_loop] at he
  | p :: rest, zk => by
    intro e he
    unfold remove_loop at he
    by_cases hp : p ∈ owned
    · rw [if_pos hp] at he
      rcases hdel : zkDelete zk (path_from_partition cfg p) with e' | zk'
      · rw [hdel] at he
        simp at he
      · rw [hdel] at he
        dsimp only at he
        rcases List.mem_cons.mp he with h | h
        · exact ⟨_, h⟩
        · exact remove_loop_events cfg owned rest zk' e h
    · rw [if_neg hp] at he
      simp at he

theorem add_loop_events (cfg : RebCfg) :
    ∀ (toAdd : List Partition) (zk : ZKState),
    ∀ e ∈ (add_loop cfg zk toAdd).2.1, ∃ q, e = Event.createEv q
  | [], zk => by
    intro e he
    simp [add_loop] at he
  | p :: rest, zk => by
    intro e he
    unfold add_loop at he
    rcases hcr : zkCreate zk (path_from_partition cfg p) cfg.selfId
      with e' | zk'
    · rw [hcr] at he
      simp at he
    · rw [hcr] at he
      dsimp only at he
      rcases List.mem_cons.mp he with h | h
      · exact ⟨_, h⟩
      · exact add_loop_events cfg rest zk' e h

theorem remove_partitions_events (cfg : RebCfg) (zk : ZKState)
    (owned toRemove : List Partition) :
    ∀ e ∈ (remove_partitions cfg zk owned toRemove).events,
      ∃ q, e = Event.deleteEv q := by
  have hl := remove_loop_events cfg owned toRemove zk
  unfold remove_partitions
  rcases hr : remove_loop cfg owned zk toRemove with ⟨zk', evs, err⟩
  rw [hr] at hl
  cases err
  · exact fun e he => hl e he
  · exact fun e he => hl e he

theorem add_partitions_events (cfg : RebCfg) (zk : ZKState)
    (owned toAdd : List Partition) :
    ∀ e ∈ (add_partitions cfg zk owned toAdd).events,
      ∃ q, e = Event.createEv q := by
  have hl := add_loop_events cfg toAdd zk
  unfold add_partitions
  rcases hr : add_loop cfg zk toAdd with ⟨zk', evs, err⟩
  rw [hr] at hl
  cases err
  · exact fun e he => hl e he
  · exact fun e he => hl e he

theorem attemptPre_no_dc (i : Nat) :
    ∀ e ∈ attemptPre i, Event.isDelete e = false ∧ Event.isCreate e = false
    := by
  unfold attemptPre
  split
  · simp
  · intro e he
    simp only [List.mem_cons, List.not_mem_nil, or_false] at he
    rcases he with rfl | rfl | rfl <;> exact ⟨rfl, rfl⟩

theorem rebalanceGo_attempt_shape (cfg : RebCfg) :
    ∀ (idxs : List Nat) (st : RebState) (np : List Partition),
    ∀ tr ∈ (rebalanceGo cfg st np idxs).2.1,
    ∃ xs ys, tr = xs ++ ys ∧
      (∀ e ∈ xs, Event.isCreate e = false) ∧
      (∀ e ∈ ys, Event.isDelete e = false)
  | [], _, _ => by
    intro tr htr
    simp [rebalanceGo] at htr
  | i :: rest, st, np => by
    intro tr htr
    unfold rebalanceGo at htr
    dsimp only at htr
    split at htr
    · -- re-decide raised ValueError: the attempt trace is just the prefix
      rcases List.mem_cons.mp htr with h | h
      · subst h
        exact ⟨attemptPre i, [], (List.append_nil _).symm,
          fun e he => (attemptPre_no_dc i e he).2, by simp⟩
      · exact absurd h (by simp)
    · split at htr
      · -- _remove_partitions raised: prefix ++ deletes
        rcases List.mem_cons.mp htr with h | h
        · subst h
          refine ⟨attemptPre i ++ (remove_partitions cfg st.zk st.partitions
              (st.partitions.filter (fun p => decide (p ∉ _)))).events, [],
            (List.append_nil _).symm, ?_, by simp⟩
          intro e he
          rcases List.mem_append.mp he with h' | h'
          · exact (attemptPre_no_dc i e h').2
          · obtain ⟨q, rfl⟩ := remove_partitions_events _ _ _ _ e h'
            rfl
        · exact absurd h (by simp)
      · split at htr
        · -- successful attempt: prefix ++ deletes ++ creates
          rcases List.mem_cons.mp htr with h | h
          · subst h
            refine ⟨_ ++ _, _, rfl, ?_, ?_⟩
            · intro e he
              rcases List.mem_append.mp he with h' | h'
              · exact (attemptPre_no_dc i e h').2
              · obtain ⟨q, rfl⟩ := remove_partitions_events _ _ _ _ e h'
                rfl
            · intro e he
              obtain ⟨q, rfl⟩ := add_partitions_events _ _ _ _ e he
              rfl
          · exact absurd h (by simp)
        · -- contention: this attempt's trace, or a later attempt's
          rcases List.mem_cons.mp htr with h | h
          · subst h
            refine ⟨_ ++ _, _, rfl, ?_, ?_⟩
            · intro e he
              rcases List.mem_append.mp he with h' | h'
              · exact (attemptPre_no_dc i e h').2
              · obtain ⟨q, rfl⟩ := remove_partitions_events _ _ _ _ e h'
                rfl
            · intro e he
              obtain ⟨q, rfl⟩ := add_partitions_events _ _ _ _ e he
              rfl
          · exact rebalanceGo_attempt_shape cfg rest _ _ tr h

theorem split_delete_before_create (xs ys : List Event)
    (hxs : ∀ e ∈ xs, Event.isCreate e = false)
    (hys : ∀ e ∈ ys, Event.isDelete e = false)
    (i j : Nat) (hi : i < (xs ++ ys).length) (hj : j < (xs ++ ys).length)
    (hdel : Event.isDelete (xs ++ ys)[i] = true)
    (hcre : Event.isCreate (xs ++ ys)[j] = true) : i < j := by
  have hilt : i < xs.length := by
    by_contra hge
    push_neg at hge
    have hmem : (xs ++ ys)[i] ∈ ys := by
      rw [List.getElem_append_right hge]
      exact List.getElem_mem _
    rw [hys _ hmem] at hdel
    exact absurd hdel (by simp)
  have hjge : xs.length ≤ j := by
    by_contra hlt
    push_neg at hlt
    have hmem : (xs ++ ys)[j] ∈ xs := by
      rw [List.getElem_append_left hlt]
      exact List.getElem_mem _
    rw [hxs _ hmem] at hcre
    exact absurd hcre (by simp)
  omega

/-- C6: within every attempt trace of a rebalance pass, every deletion of an
ownership node happens before any creation of an ownership node: releases
precede acquisitions. -/
theorem rebalance_release_before_acquire (cfg : RebCfg) (st : RebState)
    (tr : List Event) (htr : tr ∈ (rebalance cfg st).attempts)
    (i j : Nat) (hi : i < tr.length) (hj : j < tr.length)
    (hdel : Event.isDelete tr[i] = true)
    (hcre : Event.isCreate tr[j] = true) : i < j := by
  have hshape : ∃ xs ys, tr = xs ++ ys ∧
      (∀ e ∈ xs, Event.isCreate e = false) ∧
      (∀ e ∈ ys, Event.isDelete e = false) := by
    unfold rebalance at htr
    rcases hd : decide_partitions cfg.topicPartitions cfg.selfId
        (get_participants cfg st.zk) with _ | np
    · rw [hd] at htr
      simp at htr
    · rw [hd] at htr
      dsimp only at htr
      rcases hg : rebalanceGo cfg st np (List.range rebalance_retries)
        with ⟨st', trs, out⟩
      have hsh := rebalanceGo_attempt_shape cfg (List.range rebalance_retries)
        st np
      rw [hg] at hsh htr
      cases out
      · dsimp only at hsh htr
        exact hsh tr htr
      · dsimp only at hsh htr
        exact hsh tr htr
  obtain ⟨xs, ys, rfl, hxs, hys⟩ := hshape
  exact split_delete_before_create xs ys hxs hys i j hi hj hdel hcre

/-- An assignment-moving scenario: this member owns partition 0 but the new
decision gives it partition 1, so the attempt deletes one ownership node and
creates another. -/
def cfgMove : RebCfg := ⟨"t", "g", "me", [⟨"t", 0, 1⟩]⟩

def stMove : RebState :=
  ⟨[("/consumers/g/ids", ""), ("/consumers/g/ids/me", "t"),
      ("/consumers/g/owners/t", ""), ("/consumers/g/owners/t/0-0", "me")],
    [⟨"t", 0, 0⟩], none⟩

/-- Concrete instance of `rebalance_release_before_acquire`: in the attempt
trace of `cfgMove`/`stMove` the delete at position 0 precedes the create at
position 1. -/
theorem rebalance_release_before_acquire_witness : (0 : Nat) < 1 :=
  rebalance_release_before_acquire cfgMove stMove
    [Event.deleteEv "/consumers/g/owners/t/0-0",
      Event.createEv "/consumers/g/owners/t/0-1"]
    (by decide) 0 1 (by decide) (by decide) (by rfl) (by rfl)

theorem rebalanceGo_cons_trace (cfg : RebCfg) (st : RebState)
    (np : List Partition) (i : Nat) (rest : List Nat) :
    (∃ revs : List Event,
      (rebalanceGo cfg st np (i :: rest)).2.1 = [attemptPre i ++ revs] ∧
      ∀ e ∈ revs, (∃ q, e = Event.deleteEv q) ∨
        (∃ q, e = Event.createEv q)) ∨
    (∃ revs : List Event, ∃ st' : RebState, ∃ np' : List Partition,
      (rebalanceGo cfg st np (i :: rest)).2.1 =
        (attemptPre i ++ revs) :: (rebalanceGo cfg st' np' rest).2.1 ∧
      ∀ e ∈ revs, (∃ q, e = Event.deleteEv q) ∨
        (∃ q, e = Event.createEv q)) := by
  rw [rebalanceGo.eq_def]
  dsimp only
  split
  · left
    exact ⟨[], by simp, by simp⟩
  · split
    · left
      refine ⟨_, rfl, fun e he => Or.inl ?_⟩
      exact remove_partitions_events _ _ _ _ e he
    · split
      · left
        refine ⟨(remove_partitions cfg st.zk st.partitions _).events ++
          (add_partitions cfg _ _ _).events, by rw [List.append_assoc], ?_⟩
        intro e he
        rcases List.mem_append.mp he with h | h
        · exact Or.inl (remove_partitions_events _ _ _ _ e h)
        · exact Or.inr (add_partitions_events _ _ _ _ e h)
      · right
        refine ⟨(remove_partitions cfg st.zk st.partitions _).events ++
          (add_partitions cfg _ _ _).events, _, _,
          by dsimp only; rw [List.append_assoc], ?_⟩
        intro e he
        rcases List.mem_append.mp he with h | h
        · exact Or.inl (remove_partitions_events _ _ _ _ e h)
        · exact Or.inr (add_partitions_events _ _ _ _ e h)

theorem rebalanceGo_schedule (cfg : RebCfg) :
    ∀ (len s : Nat) (st : RebState) (np : List Partition),
    (rebalanceGo cfg st np (List.range' s len)).2.1.length ≤ len ∧
    (∀ k, ∀ hk : k < (rebalanceGo cfg st np (List.range' s len)).2.1.length,
      ∃ rest : List Event,
        (rebalanceGo cfg st np (List.range' s len)).2.1[k] =
          attemptPre (s + k) ++ rest ∧
        ∀ e ∈ rest, Event.isSleep e = false ∧ Event.isLog e = false ∧
          e ≠ Event.readParticipantsEv)
  | 0, s, st, np =>
    ⟨Nat.le_refl 0, fun _ hk => absurd hk (by simp [List.range', rebalanceGo])⟩
  | len + 1, s, st, np => by
    rw [List.range'_succ]
    rcases rebalanceGo_cons_trace cfg st np s (List.range' (s + 1) len) with
      ⟨revs, htr, hrevs⟩ | ⟨revs, st', np', htr, hrevs⟩
    · rw [htr]
      refine ⟨by simp, fun k hk => ?_⟩
      have hk0 : k = 0 := by
        simp only [List.length_singleton] at hk
        omega
      subst hk0
      refine ⟨revs, by simp, fun e he => ?_⟩
      rcases hrevs e he with ⟨q, rfl⟩ | ⟨q, rfl⟩ <;> exact ⟨rfl, rfl, by simp⟩
    · rw [htr]
      have IH := rebalanceGo_schedule cfg len (s + 1) st' np'
      refine ⟨?_, fun k hk => ?_⟩
      · exact Nat.succ_le_succ IH.1
      · cases k with
        | zero =>
          refine ⟨revs, by simp, fun e he => ?_⟩
          rcases hrevs e he with ⟨q, rfl⟩ | ⟨q, rfl⟩ <;>
            exact ⟨rfl, rfl, by simp⟩
        | succ k =>
          have hk' : k < (rebalanceGo cfg st' np'
              (List.range' (s + 1) len)).2.1.length := by
            simpa using hk
          obtain ⟨rest, hre, hb⟩ := IH.2 k hk'
          refine ⟨rest, ?_, hb⟩
          rw [List.getElem_cons_succ,
            show s + (k + 1) = s + 1 + k from by omega]
          exact hre

/-- C7: `_rebalance` makes at most `rebalance_retries = 5` attempts;
attempt 0 performs neither retry log nor sleep; every retry attempt
`k >= 1` first logs `Retrying in (k+1)^2 s`, then sleeps exactly `k^2`
seconds, then re-reads the participant list for the re-decision (the events
of `attemptPre k`), before any further action of the attempt.  In
particular the sleeps over the five attempts follow the schedule
0, 1, 4, 9, 16 while the logged intervals are 4, 9, 16, 25. -/
theorem rebalance_retry_schedule (cfg : RebCfg) (st : RebState) :
    (rebalance cfg st).attempts.length ≤ rebalance_retries ∧
    (∀ k, ∀ hk : k < (rebalance cfg st).attempts.length,
      ∃ rest : List Event,
        (rebalance cfg st).attempts[k] = attemptPre k ++ rest ∧
        ∀ e ∈ rest, Event.isSleep e = false ∧ Event.isLog e = false ∧
          e ≠ Event.readParticipantsEv) := by
  unfold rebalance
  rcases hd : decide_partitions cfg.topicPartitions cfg.selfId
      (get_participants cfg st.zk) with _ | np
  · dsimp only
    exact ⟨by simp [rebalance_retries], fun k hk => absurd hk (by simp)⟩
  · dsimp only
    have hs := rebalanceGo_schedule cfg rebalance_retries 0 st np
    rw [← List.range_eq_range'] at hs
    rcases hg : rebalanceGo cfg st np (List.range rebalance_retries)
      with ⟨st', trs, out⟩
    rw [hg] at hs
    cases out
    · dsimp only at hs ⊢
      refine ⟨hs.1, fun k hk => ?_⟩
      obtain ⟨rest, hre, hb⟩ := hs.2 k hk
      rw [Nat.zero_add] at hre
      exact ⟨rest, hre, hb⟩
    · dsimp only at hs ⊢
      refine ⟨hs.1, fun k hk => ?_⟩
      obtain ⟨rest, hre, hb⟩ := hs.2 k hk
      rw [Nat.zero_add] at hre
      exact ⟨rest, hre, hb⟩

/-- A contention scenario: the single partition's ownership node is held by
another member and never released, so every attempt's create fails and all
five attempts run. -/
def cfgStuck : RebCfg := ⟨"t", "g", "me", [⟨"t", 0, 0⟩]⟩

def stStuck : RebState :=
  ⟨[("/consumers/g/ids", ""), ("/consumers/g/ids/me", "t"),
      ("/consumers/g/owners/t", ""), ("/consumers/g/owners/t/0-0", "other")],
    [], none⟩

/-- Concrete instance of `rebalance_retry_schedule`: under unresolved
contention all five attempts run, and the second attempt (k = 1) logs 4,
sleeps exactly 1 second, and re-reads, before anything else. -/
theorem rebalance_retry_schedule_witness :
    (rebalance cfgStuck stStuck).attempts.length = 5 ∧
    ∃ rest : List Event,
      (rebalance cfgStuck stStuck).attempts.get ⟨1, by decide⟩ =
        [Event.logRetryEv 4, Event.sleepEv 1, Event.readParticipantsEv] ++
          rest ∧
      ∀ e ∈ rest, Event.isSleep e = false ∧ Event.isLog e = false ∧
        e ≠ Event.readParticipantsEv := by
  have h := (rebalance_retry_schedule cfgStuck stStuck).2 1 (by decide)
  exact ⟨by decide, by simpa [attemptPre] using h⟩

end PyKafka
